import Mathlib

/-!
Verification of the wave-field simulation core and its demo drivers from the
d3d11 tutorial repository.

The repository's `Waves` class (Waves.h / Waves.cpp) is referenced by the
drivers `LandAndWavesApp.cpp` and `TexWavesApp.cpp` but its own source is not
part of the source tree examined here, so the core is modelled from the
specification (spec.md sections 3, 4, 7).  Exact rational arithmetic (`ℚ`)
stands in for the C++ `float` arithmetic, as the spec's identities are stated
in exact arithmetic.  Driver-side code (texture-coordinate derivation, the
per-tick call order, index-buffer generation, the randomized `Disturb`
call sites) is embedded directly from the source files under
`Chapter 7/LandAndWaves/LandAndWavesApp.cpp` and
`Chapter 9/TexWaves/TexWavesApp.cpp`.
-/

namespace D3DWaves

/-- A 3-component vector of exact rationals, standing in for `XMFLOAT3`. -/
structure Vec3 where
  x : ℚ
  y : ℚ
  z : ℚ
deriving DecidableEq, Repr

/-- Modelled from the spec: the state of the `Waves` class (spec.md section 3,
"Data model"; the class source Waves.h/Waves.cpp is not in the examined tree).
Three equally sized height buffers `prev`, `curr`, `next` (time steps t-Δt, t
and the scratch target t+Δt), a parallel position buffer, a parallel normal
buffer, the immutable grid parameters, the derived stencil coefficients
`k1 k2 k3`, and the elapsed-time accumulator for `Update`'s fixed sub-steps. -/
structure Waves where
  rows : ℕ
  cols : ℕ
  spatialStep : ℚ
  timeStep : ℚ
  speed : ℚ
  damping : ℚ
  k1 : ℚ
  k2 : ℚ
  k3 : ℚ
  prev : List ℚ
  curr : List ℚ
  next : List ℚ
  pos : List Vec3
  normal : List Vec3
  accum : ℚ
deriving DecidableEq, Repr

namespace Waves

/-- Flattened index of sample `(r, c)`: `i = r * cols + c` (spec.md 4.1). -/
def idx (cols r c : ℕ) : ℕ := r * cols + c

/-- Height stored for sample `(r, c)` in a flattened buffer. -/
def hAt (buf : List ℚ) (cols r c : ℕ) : ℚ := buf.getD (idx cols r c) 0

/-- In-place `buf[i] += v` on a flattened buffer. -/
def addAt (buf : List ℚ) (i : ℕ) (v : ℚ) : List ℚ :=
  buf.set i (buf.getD i 0 + v)

/-- Modelled from the spec: the `Waves` constructor (spec.md 4.1,
"Construction").  All heights start at zero, positions form a centered planar
grid spanning `(cols-1)*dx` by `(rows-1)*dx` at height 0, normals start
straight up, and the stencil coefficients are precomputed from
`d = damping*ts + 2` and `e = speed^2 * ts^2 / dx^2`. -/
def init (rows cols : ℕ) (dx ts speed damping : ℚ) : Waves :=
  let d : ℚ := damping * ts + 2
  let e : ℚ := speed ^ 2 * ts ^ 2 / dx ^ 2
  { rows := rows
    cols := cols
    spatialStep := dx
    timeStep := ts
    speed := speed
    damping := damping
    k1 := (damping * ts - 2) / d
    k2 := (4 - 8 * e) / d
    k3 := (2 * e) / d
    prev := List.replicate (rows * cols) 0
    curr := List.replicate (rows * cols) 0
    next := List.replicate (rows * cols) 0
    pos := (List.range (rows * cols)).map fun i =>
      { x := -(((cols : ℚ) - 1) * dx) / 2 + ((i % cols : ℕ) : ℚ) * dx
        y := 0
        z := (((rows : ℚ) - 1) * dx) / 2 - ((i / cols : ℕ) : ℚ) * dx }
    normal := List.replicate (rows * cols) ⟨0, 1, 0⟩
    accum := 0 }

/-- Accessor `RowCount()`. -/
def RowCount (w : Waves) : ℕ := w.rows

/-- Accessor `ColumnCount()`. -/
def ColumnCount (w : Waves) : ℕ := w.cols

/-- Accessor `VertexCount()`: one vertex per grid sample. -/
def VertexCount (w : Waves) : ℕ := w.rows * w.cols

/-- Accessor `Width() = (cols-1)*spatialStep` (spec.md 4.1). -/
def Width (w : Waves) : ℚ := ((w.cols : ℚ) - 1) * w.spatialStep

/-- Accessor `Depth() = (rows-1)*spatialStep` (spec.md 4.1). -/
def Depth (w : Waves) : ℚ := ((w.rows : ℚ) - 1) * w.spatialStep

/-- Accessor `Position(i)`: position of flattened sample index `i`. -/
def Position (w : Waves) (i : ℕ) : Vec3 := w.pos.getD i ⟨0, 0, 0⟩

/-- Accessor `Normal(i)`: normal of flattened sample index `i`. -/
def Normal (w : Waves) (i : ℕ) : Vec3 := w.normal.getD i ⟨0, 1, 0⟩

/-- Modelled from the spec: `Disturb(row, col, magnitude)` (spec.md 4.1).
Adds `magnitude` to the current-height buffer at `(r, c)` and `magnitude/2`
to each of the four axis-adjacent neighbors, touching no other state. -/
def Disturb (w : Waves) (r c : ℕ) (m : ℚ) : Waves :=
  let b0 := addAt w.curr (idx w.cols r c) m
  let b1 := addAt b0 (idx w.cols (r + 1) c) (m / 2)
  let b2 := addAt b1 (idx w.cols (r - 1) c) (m / 2)
  let b3 := addAt b2 (idx w.cols r (c + 1)) (m / 2)
  let b4 := addAt b3 (idx w.cols r (c - 1)) (m / 2)
  { w with curr := b4 }

/-- The strict-interior precondition of `Disturb` (spec.md 4.1):
`row ∈ [1, rows-2]` and `col ∈ [1, cols-2]`. -/
def interior (w : Waves) (r c : ℕ) : Prop :=
  1 ≤ r ∧ r ≤ w.rows - 2 ∧ 1 ≤ c ∧ c ≤ w.cols - 2

instance (w : Waves) (r c : ℕ) : Decidable (interior w r c) := by
  unfold interior; infer_instance

/-- Modelled from the spec: the validated `Disturb` mandated by spec.md
section 7 ("Precondition violations … reject with a domain error …
explicit failures, not silent corruption"): out-of-interior coordinates are
rejected with an error and no state is produced. -/
def disturbChecked (w : Waves) (r c : ℕ) (m : ℚ) : Except String Waves :=
  if interior w r c then Except.ok (Disturb w r c m)
  else Except.error "Disturb: coordinates outside the strict interior"

/-- Modelled from the spec: the finite-difference stencil value for interior
sample `(r, c)` (spec.md 4.1, the `next[row,col] = …` equation). -/
def stencilAt (w : Waves) (r c : ℕ) : ℚ :=
  w.k1 * hAt w.prev w.cols r c + w.k2 * hAt w.curr w.cols r c
    + w.k3 * (hAt w.curr w.cols (r + 1) c + hAt w.curr w.cols (r - 1) c
      + hAt w.curr w.cols r (c + 1) + hAt w.curr w.cols r (c - 1))

/-- Modelled from the spec: the contents of the `next` buffer after one
integration step.  Interior samples receive the stencil value; every other
entry keeps whatever stale value the reused `next` storage already held
(the step writes interior samples only — spec.md 4.1). -/
def computeNext (w : Waves) : List ℚ :=
  (List.range (w.rows * w.cols)).map fun i =>
    let r := i / w.cols
    let c := i % w.cols
    if 1 ≤ r ∧ r ≤ w.rows - 2 ∧ 1 ≤ c ∧ c ≤ w.cols - 2 then stencilAt w r c
    else w.next.getD i 0

/-- Modelled from the spec: one discrete integration step of `Update`
(spec.md 4.1): fill the interior of `next` from the stencil, rotate the three
buffer roles (`prev ← curr`, `curr ← next`, the stale `prev` storage becomes
the new `next` target — a rotation, not a copy), and subtract `timeStep`
from the accumulator. -/
def integrationStep (w : Waves) : Waves :=
  { w with
    prev := w.curr
    curr := computeNext w
    next := w.prev
    accum := w.accum - w.timeStep }

/-- Modelled from the spec: the per-sample surface normal recomputed from
central differences of the current heights with respect to both axes, with
neighbor indices clamped at the edges (spec.md 4.1).  The source normalizes
this vector to unit length; the square-root scaling is not representable in
exact rational arithmetic and is omitted here — it is a strictly positive
scaling, so equality (and unchangedness) of normals is fully determined by
this pre-normalization vector, which is all the claims below depend on. -/
def normalAt (w : Waves) (r c : ℕ) : Vec3 :=
  { x := hAt w.curr w.cols r (c - 1) - hAt w.curr w.cols r (min (c + 1) (w.cols - 1))
    y := 2 * w.spatialStep
    z := hAt w.curr w.cols (r - 1) c - hAt w.curr w.cols (min (r + 1) (w.rows - 1)) c }

/-- Modelled from the spec: after the integration steps of an `Update` call
complete, every sample's `position.y` is recomputed from the current height
buffer and every normal is recomputed from central differences (spec.md 4.1).
Planar `x`/`z` position components are never mutated (spec.md section 3). -/
def refreshGeometry (w : Waves) : Waves :=
  { w with
    pos := (List.range (w.rows * w.cols)).map fun i =>
      { x := (w.pos.getD i ⟨0, 0, 0⟩).x
        y := w.curr.getD i 0
        z := (w.pos.getD i ⟨0, 0, 0⟩).z }
    normal := (List.range (w.rows * w.cols)).map fun i =>
      normalAt w (i / w.cols) (i % w.cols) }

/-- Runs at most `fuel` integration steps, stopping as soon as the
accumulator drops below `timeStep` — the body of the spec's
`while accumulator ≥ timeStep` loop. -/
def updateLoopAux : ℕ → Waves → Waves
  | 0, w => w
  | Nat.succ n, w =>
    if w.timeStep ≤ w.accum then updateLoopAux n (integrationStep w) else w

/-- Modelled from the spec: `Update(dt)` (spec.md 4.1).  Adds `dt` to the
elapsed-time accumulator, then runs the `while accumulator ≥ timeStep` loop
of integration steps, then refreshes positions and normals.  The loop is
expressed with an explicit iteration count: when `timeStep > 0` the while
loop performs exactly `⌊accumulator / timeStep⌋` iterations (each one
subtracts `timeStep`), which is the fuel passed to `updateLoopAux`; the
guard inside `updateLoopAux` re-checks the loop condition before every step.
When `timeStep ≤ 0` the source loop would not terminate; no step is taken. -/
def Update (w : Waves) (dt : ℚ) : Waves :=
  let w1 : Waves := { w with accum := w.accum + dt }
  let fuel : ℕ := if 0 < w1.timeStep then (⌊w1.accum / w1.timeStep⌋).toNat else 0
  refreshGeometry (updateLoopAux fuel w1)

/-- A single driver-issued call against the wave field. -/
inductive WaveCall where
  | disturb (r c : ℕ) (m : ℚ)
  | update (dt : ℚ)
deriving DecidableEq, Repr

/-- Applies one driver call. -/
def applyCall (w : Waves) : WaveCall → Waves
  | .disturb r c m => Disturb w r c m
  | .update dt => Update w dt

/-- A wave field reachable from a valid construction (`rows > 2`, `cols > 2`,
`timeStep > 0`) by a finite sequence of `Disturb` and nonnegative-`dt`
`Update` calls — the driver lifecycle of spec.md section 2. -/
def Reachable (w : Waves) : Prop :=
  ∃ (rows cols : ℕ) (dx ts speed damping : ℚ) (calls : List WaveCall),
    2 < rows ∧ 2 < cols ∧ 0 < ts ∧
    (∀ k ∈ calls, ∀ dt, k = WaveCall.update dt → 0 ≤ dt) ∧
    w = List.foldl applyCall (init rows cols dx ts speed damping) calls

/-! ### Basic lemmas about flattened buffers -/

theorem getD_set_ne (l : List ℚ) {i j : ℕ} (v : ℚ) (h : i ≠ j) :
    (l.set i v).getD j 0 = l.getD j 0 := by
  simp [List.getD_eq_getElem?_getD, List.getElem?_set_ne h]

theorem getD_set_self (l : List ℚ) {i : ℕ} (v : ℚ) (h : i < l.length) :
    (l.set i v).getD i 0 = v := by
  simp [List.getD_eq_getElem?_getD, List.getElem?_set_self, h]

theorem getD_map_range {α : Type} (n i : ℕ) (h : i < n) (f : ℕ → α) (d : α) :
    ((List.range n).map f).getD i d = f i := by
  simp [List.getD_eq_getElem?_getD, List.getElem?_map, List.getElem?_range, h]

theorem getD_replicate_zero (n i : ℕ) : (List.replicate n (0:ℚ)).getD i 0 = 0 := by
  simp only [List.getD_eq_getElem?_getD, List.getElem?_replicate]
  split <;> simp

theorem length_addAt (l : List ℚ) (i : ℕ) (v : ℚ) : (addAt l i v).length = l.length := by
  simp [addAt]

theorem getD_addAt_ne (l : List ℚ) {i j : ℕ} (v : ℚ) (h : i ≠ j) :
    (addAt l i v).getD j 0 = l.getD j 0 :=
  getD_set_ne l _ h

theorem getD_addAt_self (l : List ℚ) {i : ℕ} (v : ℚ) (h : i < l.length) :
    (addAt l i v).getD i 0 = l.getD i 0 + v :=
  getD_set_self l _ h

/-- The flattened index is injective on in-range column coordinates. -/
theorem idx_div (cols r c : ℕ) (hc : c < cols) : idx cols r c / cols = r := by
  unfold idx
  rw [Nat.add_comm, Nat.add_mul_div_right _ _ (by omega : 0 < cols), Nat.div_eq_of_lt hc]
  omega

theorem idx_mod (cols r c : ℕ) (hc : c < cols) : idx cols r c % cols = c := by
  unfold idx
  rw [Nat.add_comm, Nat.add_mul_mod_self_right]
  exact Nat.mod_eq_of_lt hc

theorem idx_inj {cols r c r' c' : ℕ} (hc : c < cols) (hc' : c' < cols)
    (h : idx cols r c = idx cols r' c') : r = r' ∧ c = c' := by
  constructor
  · rw [← idx_div cols r c hc, ← idx_div cols r' c' hc', h]
  · rw [← idx_mod cols r c hc, ← idx_mod cols r' c' hc', h]

theorem idx_ne {cols r c r' c' : ℕ} (hc : c < cols) (hc' : c' < cols)
    (h : r ≠ r' ∨ c ≠ c') : idx cols r c ≠ idx cols r' c' := by
  intro he
  rcases idx_inj hc hc' he with ⟨h1, h2⟩
  rcases h with h | h <;> exact h (by omega)

theorem idx_lt {rows cols r c : ℕ} (hr : r < rows) (hc : c < cols) :
    idx cols r c < rows * cols := by
  unfold idx
  calc r * cols + c < r * cols + cols := by omega
    _ = (r + 1) * cols := by ring
    _ ≤ rows * cols := Nat.mul_le_mul_right _ (by omega)

/-- Characterization of the `next` buffer produced by one integration step:
interior samples receive the stencil value, all other samples keep the stale
contents of the reused `next` storage. -/
theorem hAt_computeNext (w : Waves) {r c : ℕ} (hr : r < w.rows) (hc : c < w.cols) :
    hAt (computeNext w) w.cols r c =
      if 1 ≤ r ∧ r ≤ w.rows - 2 ∧ 1 ≤ c ∧ c ≤ w.cols - 2 then stencilAt w r c
      else w.next.getD (idx w.cols r c) 0 := by
  unfold hAt computeNext
  rw [getD_map_range _ _ (idx_lt hr hc)]
  simp only [idx_div _ _ _ hc, idx_mod _ _ _ hc]

theorem length_computeNext (w : Waves) : (computeNext w).length = w.rows * w.cols := by
  simp [computeNext]

end Waves

/-! ### Driver-side code, embedded from the source files under src/ -/

namespace MathHelper

/-- Modelled from the spec: `MathHelper::Rand(a, b)` (MathHelper.h is not in
the examined tree; only its call sites in the drivers are).  It returns a
random integer in the inclusive range `[a, b]`; the randomness is modelled by
an arbitrary seed `s`, combined as `a + s % ((b - a) + 1)`, covering exactly
the values `a, …, b`. -/
def Rand (a b : ℕ) (s : ℕ) : ℕ := a + s % (b - a + 1)

/-- Modelled from the spec: `MathHelper::RandF(a, b)`: a random float in
`[a, b]`, modelled as `a + u * (b - a)` for an arbitrary `u ∈ [0, 1]`. -/
def RandF (a b : ℚ) (u : ℚ) : ℚ := a + u * (b - a)

theorem Rand_mem (a b s : ℕ) (hab : a ≤ b) : a ≤ Rand a b s ∧ Rand a b s ≤ b := by
  unfold Rand
  have h : s % (b - a + 1) < b - a + 1 := Nat.mod_lt _ (by omega)
  omega

theorem RandF_mem (a b : ℚ) (u : ℚ) (hab : a ≤ b) (h0 : 0 ≤ u) (h1 : u ≤ 1) :
    a ≤ RandF a b u ∧ RandF a b u ≤ b := by
  unfold RandF
  constructor
  · nlinarith
  · nlinarith

end MathHelper

/-- The waves instance both demo drivers construct:
`mWaves = std::make_unique<Waves>(128, 128, 1.f, 0.03f, 4.f, 0.2f);`
(LandAndWavesApp.cpp line 120, TexWavesApp.cpp line 140). -/
def landAndWavesInit : Waves := Waves.init 128 128 1 (3/100) 4 (1/5)

/-- A vertex of the dynamic waves vertex buffer as filled by
`TexWavesApp::UpdateWaves` (TexWavesApp.cpp lines 873-887): position, normal,
and texture coordinates. -/
structure Vertex where
  pos : Vec3
  normal : Vec3
  texC : ℚ × ℚ
deriving DecidableEq, Repr

/-- The vertex the driver writes for flattened sample index `i`
(TexWavesApp.cpp lines 876-884):
`v.Pos = mWaves->Position(i); v.Normal = mWaves->Normal(i);`
`v.TexC.x = 0.5f + v.Pos.x / mWaves->Width();`
`v.TexC.y = 0.5f - v.Pos.z / mWaves->Depth();` -/
def mkWaveVertex (w : Waves) (i : ℕ) : Vertex :=
  let p := Waves.Position w i
  { pos := p
    normal := Waves.Normal w i
    texC := (1/2 + p.x / Waves.Width w, 1/2 - p.z / Waves.Depth w) }

/-- The driver state touched by `TexWavesApp::UpdateWaves`: the periodic-timer
base `t_base`, the wave field, and the dynamic vertex buffer contents. -/
structure TexWavesState where
  tBase : ℚ
  waves : Waves
  wavesVB : List Vertex
deriving Repr

/-- One tick of `TexWavesApp::UpdateWaves` (TexWavesApp.cpp lines 853-891;
`LandAndWavesApp::UpdateWaves`, lines 183-216, is identical except that the
vertex carries a fixed color instead of normal/texcoords):
if the 0.25-second timer has elapsed, issue one `Disturb` at randomized grid
coordinates (modelled by the `randRow`/`randCol`/`randMag` inputs) and advance
`t_base`; then call `Update(dt)` exactly once; then read `Position(i)` (and
`Normal(i)`) for every `i` in `[0, VertexCount())` to refill the vertex
buffer. -/
def UpdateWavesTick (st : TexWavesState) (totalTime dt : ℚ)
    (randRow randCol : ℕ) (randMag : ℚ) : TexWavesState :=
  let fire : Prop := (1/4 : ℚ) ≤ totalTime - st.tBase
  let tBase' := if fire then st.tBase + 1/4 else st.tBase
  let w1 := if fire then Waves.Disturb st.waves randRow randCol randMag else st.waves
  let w2 := Waves.Update w1 dt
  { tBase := tBase'
    waves := w2
    wavesVB := (List.range (Waves.VertexCount w2)).map (mkWaveVertex w2) }

/-- The index buffer generated by `BuildWavesGeometry` (LandAndWavesApp.cpp
lines 495-518, TexWavesApp.cpp lines 540-563): for each quad `(i, j)` with
`i < m-1`, `j < n-1`, the six indices of its two triangles. -/
def wavesIndices (m n : ℕ) : List ℕ :=
  (List.range (m - 1)).flatMap fun i =>
    (List.range (n - 1)).flatMap fun j =>
      [i * n + j, i * n + j + 1, (i + 1) * n + j,
       (i + 1) * n + j, i * n + j + 1, (i + 1) * n + j + 1]

/-! ### The update loop as an iterated integration step -/

theorem updateLoopAux_eq_iterate (n : ℕ) : ∀ (w : Waves), 0 < w.timeStep →
    n = (⌊w.accum / w.timeStep⌋).toNat →
    Waves.updateLoopAux n w = Waves.integrationStep^[n] w := by
  induction n with
  | zero => intro w _ _; rfl
  | succ n ih =>
    intro w hts hn
    have h1 : (1:ℤ) ≤ ⌊w.accum / w.timeStep⌋ := by omega
    have h2 : (1:ℚ) ≤ w.accum / w.timeStep := by exact_mod_cast Int.le_floor.mp h1
    have hge : w.timeStep ≤ w.accum := (one_le_div hts).mp h2
    have hstep : Waves.updateLoopAux (n + 1) w
        = Waves.updateLoopAux n (Waves.integrationStep w) := by
      rw [Waves.updateLoopAux, if_pos hge]
    have hfloor : ⌊(Waves.integrationStep w).accum / (Waves.integrationStep w).timeStep⌋
        = ⌊w.accum / w.timeStep⌋ - 1 := by
      show ⌊(w.accum - w.timeStep) / w.timeStep⌋ = _
      rw [sub_div, div_self hts.ne', Int.floor_sub_one]
    rw [hstep, ih (Waves.integrationStep w) hts (by omega), Function.iterate_succ_apply]

theorem update_eq_iterate (w : Waves) (dt : ℚ) (hts : 0 < w.timeStep) :
    Waves.Update w dt = Waves.refreshGeometry
      (Waves.integrationStep^[(⌊(w.accum + dt) / w.timeStep⌋).toNat]
        { w with accum := w.accum + dt }) := by
  have hdef : Waves.Update w dt = Waves.refreshGeometry
      (Waves.updateLoopAux
        (if 0 < w.timeStep then (⌊(w.accum + dt) / w.timeStep⌋).toNat else 0)
        { w with accum := w.accum + dt }) := rfl
  rw [hdef, if_pos hts]
  exact congrArg Waves.refreshGeometry
    (updateLoopAux_eq_iterate _ { w with accum := w.accum + dt } hts rfl)

/-! ### Claim C1: Update accumulates, steps the stencil, rotates buffers -/

/-- C1: `Update(dt)` adds `dt` to the elapsed-time accumulator and then runs
exactly `⌊accumulator / timeStep⌋` integration steps followed by the geometry
refresh (the while-loop semantics: each step subtracts `timeStep`, so that
many iterations run while the accumulator stays ≥ `timeStep`); each
integration step writes the stencil combination
`k1*prev + k2*curr + k3*(four neighbors of curr)` into every interior sample
of the next buffer and rotates the three buffer roles without copying element
values (`prev` receives the old `curr` list itself, the new `next` is the
stale old `prev` storage), subtracting `timeStep` from the accumulator. -/
theorem update_accumulates_and_steps (w : Waves) (dt : ℚ) (r c : ℕ)
    (hts : 0 < w.timeStep)
    (hr1 : 1 ≤ r) (hr2 : r ≤ w.rows - 2) (hc1 : 1 ≤ c) (hc2 : c ≤ w.cols - 2) :
    Waves.Update w dt = Waves.refreshGeometry
      (Waves.integrationStep^[(⌊(w.accum + dt) / w.timeStep⌋).toNat]
        { w with accum := w.accum + dt })
    ∧ (Waves.integrationStep w).prev = w.curr
    ∧ (Waves.integrationStep w).next = w.prev
    ∧ (Waves.integrationStep w).accum = w.accum - w.timeStep
    ∧ Waves.hAt (Waves.integrationStep w).curr w.cols r c
        = w.k1 * Waves.hAt w.prev w.cols r c + w.k2 * Waves.hAt w.curr w.cols r c
          + w.k3 * (Waves.hAt w.curr w.cols (r + 1) c + Waves.hAt w.curr w.cols (r - 1) c
            + Waves.hAt w.curr w.cols r (c + 1) + Waves.hAt w.curr w.cols r (c - 1)) := by
  refine ⟨update_eq_iterate w dt hts, rfl, rfl, rfl, ?_⟩
  have hrow : r < w.rows := by omega
  have hcol : c < w.cols := by omega
  show Waves.hAt (Waves.computeNext w) w.cols r c = _
  rw [Waves.hAt_computeNext w hrow hcol, if_pos ⟨hr1, hr2, hc1, hc2⟩]
  rfl

/-- C1, witness on a freshly constructed 4×4 grid with one full time step. -/
theorem update_accumulates_and_steps_witness :
    (0 < (Waves.init 4 4 1 1 1 0).timeStep
      ∧ 1 ≤ 1 ∧ 1 ≤ (Waves.init 4 4 1 1 1 0).rows - 2
      ∧ 1 ≤ 1 ∧ 1 ≤ (Waves.init 4 4 1 1 1 0).cols - 2)
    ∧ (Waves.Update (Waves.init 4 4 1 1 1 0) 1 = Waves.refreshGeometry
        (Waves.integrationStep^[(⌊((Waves.init 4 4 1 1 1 0).accum + 1)
            / (Waves.init 4 4 1 1 1 0).timeStep⌋).toNat]
          { Waves.init 4 4 1 1 1 0 with accum := (Waves.init 4 4 1 1 1 0).accum + 1 })
      ∧ (Waves.integrationStep (Waves.init 4 4 1 1 1 0)).prev = (Waves.init 4 4 1 1 1 0).curr
      ∧ (Waves.integrationStep (Waves.init 4 4 1 1 1 0)).next = (Waves.init 4 4 1 1 1 0).prev
      ∧ (Waves.integrationStep (Waves.init 4 4 1 1 1 0)).accum
          = (Waves.init 4 4 1 1 1 0).accum - (Waves.init 4 4 1 1 1 0).timeStep
      ∧ Waves.hAt (Waves.integrationStep (Waves.init 4 4 1 1 1 0)).curr
            (Waves.init 4 4 1 1 1 0).cols 1 1
          = (Waves.init 4 4 1 1 1 0).k1
              * Waves.hAt (Waves.init 4 4 1 1 1 0).prev (Waves.init 4 4 1 1 1 0).cols 1 1
            + (Waves.init 4 4 1 1 1 0).k2
              * Waves.hAt (Waves.init 4 4 1 1 1 0).curr (Waves.init 4 4 1 1 1 0).cols 1 1
            + (Waves.init 4 4 1 1 1 0).k3
              * (Waves.hAt (Waves.init 4 4 1 1 1 0).curr (Waves.init 4 4 1 1 1 0).cols (1 + 1) 1
                + Waves.hAt (Waves.init 4 4 1 1 1 0).curr (Waves.init 4 4 1 1 1 0).cols (1 - 1) 1
                + Waves.hAt (Waves.init 4 4 1 1 1 0).curr (Waves.init 4 4 1 1 1 0).cols 1 (1 + 1)
                + Waves.hAt (Waves.init 4 4 1 1 1 0).curr (Waves.init 4 4 1 1 1 0).cols 1 (1 - 1))) :=
  ⟨⟨by norm_num [Waves.init], by decide, by decide, by decide, by decide⟩,
   update_accumulates_and_steps (Waves.init 4 4 1 1 1 0) 1 1 1
     (by norm_num [Waves.init]) (by decide) (by decide) (by decide) (by decide)⟩

/-! ### Claim C3: the impulse shape of Disturb on an all-zero field -/

/-- C3: immediately after a single `Disturb(r, c, m)` at a strictly interior
coordinate of a validly constructed field whose current-height buffer is all
zero, the current buffer holds `m` at `(r, c)` and `m/2` at each of the four
axis-adjacent neighbors; any sample `(r', c')` distinct from those five still
holds 0; and the position and normal arrays (as well as the other two height
buffers) are unchanged. -/
theorem disturb_impulse_shape (w : Waves) (r c r' c' : ℕ) (m : ℚ)
    (hrows : 2 < w.rows) (hcols : 2 < w.cols)
    (hzero : w.curr = List.replicate (w.rows * w.cols) 0)
    (hr1 : 1 ≤ r) (hr2 : r ≤ w.rows - 2) (hc1 : 1 ≤ c) (hc2 : c ≤ w.cols - 2)
    (hr' : r' < w.rows) (hc' : c' < w.cols)
    (hd0 : r' ≠ r ∨ c' ≠ c) (hd1 : r' ≠ r + 1 ∨ c' ≠ c) (hd2 : r' ≠ r - 1 ∨ c' ≠ c)
    (hd3 : r' ≠ r ∨ c' ≠ c + 1) (hd4 : r' ≠ r ∨ c' ≠ c - 1) :
    Waves.hAt (Waves.Disturb w r c m).curr w.cols r c = m
    ∧ Waves.hAt (Waves.Disturb w r c m).curr w.cols (r + 1) c = m / 2
    ∧ Waves.hAt (Waves.Disturb w r c m).curr w.cols (r - 1) c = m / 2
    ∧ Waves.hAt (Waves.Disturb w r c m).curr w.cols r (c + 1) = m / 2
    ∧ Waves.hAt (Waves.Disturb w r c m).curr w.cols r (c - 1) = m / 2
    ∧ Waves.hAt (Waves.Disturb w r c m).curr w.cols r' c' = 0
    ∧ (Waves.Disturb w r c m).pos = w.pos
    ∧ (Waves.Disturb w r c m).normal = w.normal
    ∧ (Waves.Disturb w r c m).prev = w.prev
    ∧ (Waves.Disturb w r c m).next = w.next := by
  have hcc : c < w.cols := by omega
  have hcp : c + 1 < w.cols := by omega
  have hcm : c - 1 < w.cols := by omega
  have hrr : r < w.rows := by omega
  have hrp : r + 1 < w.rows := by omega
  have hrm : r - 1 < w.rows := by omega
  have hlen0 : w.curr.length = w.rows * w.cols := by rw [hzero]; simp
  have hbase : ∀ a b : ℕ, w.curr.getD (Waves.idx w.cols a b) 0 = 0 := by
    intro a b; rw [hzero]; exact Waves.getD_replicate_zero _ _
  have hl0 : Waves.idx w.cols r c < w.curr.length := by
    rw [hlen0]; exact Waves.idx_lt hrr hcc
  have hl1 : Waves.idx w.cols (r + 1) c
      < (Waves.addAt w.curr (Waves.idx w.cols r c) m).length := by
    rw [Waves.length_addAt, hlen0]; exact Waves.idx_lt hrp hcc
  have hl2 : Waves.idx w.cols (r - 1) c
      < (Waves.addAt (Waves.addAt w.curr (Waves.idx w.cols r c) m)
          (Waves.idx w.cols (r + 1) c) (m / 2)).length := by
    rw [Waves.length_addAt, Waves.length_addAt, hlen0]; exact Waves.idx_lt hrm hcc
  have hl3 : Waves.idx w.cols r (c + 1)
      < (Waves.addAt (Waves.addAt (Waves.addAt w.curr (Waves.idx w.cols r c) m)
          (Waves.idx w.cols (r + 1) c) (m / 2))
          (Waves.idx w.cols (r - 1) c) (m / 2)).length := by
    rw [Waves.length_addAt, Waves.length_addAt, Waves.length_addAt, hlen0]
    exact Waves.idx_lt hrr hcp
  have hl4 : Waves.idx w.cols r (c - 1)
      < (Waves.addAt (Waves.addAt (Waves.addAt (Waves.addAt w.curr
          (Waves.idx w.cols r c) m)
          (Waves.idx w.cols (r + 1) c) (m / 2))
          (Waves.idx w.cols (r - 1) c) (m / 2))
          (Waves.idx w.cols r (c + 1)) (m / 2)).length := by
    rw [Waves.length_addAt, Waves.length_addAt, Waves.length_addAt,
      Waves.length_addAt, hlen0]
    exact Waves.idx_lt hrr hcm
  refine ⟨?_, ?_, ?_, ?_, ?_, ?_, rfl, rfl, rfl, rfl⟩
  · show (Waves.addAt (Waves.addAt (Waves.addAt (Waves.addAt (Waves.addAt w.curr
        (Waves.idx w.cols r c) m)
        (Waves.idx w.cols (r + 1) c) (m / 2))
        (Waves.idx w.cols (r - 1) c) (m / 2))
        (Waves.idx w.cols r (c + 1)) (m / 2))
        (Waves.idx w.cols r (c - 1)) (m / 2)).getD (Waves.idx w.cols r c) 0 = m
    rw [Waves.getD_addAt_ne _ _ (Waves.idx_ne hcm hcc (by omega)),
      Waves.getD_addAt_ne _ _ (Waves.idx_ne hcp hcc (by omega)),
      Waves.getD_addAt_ne _ _ (Waves.idx_ne hcc hcc (by omega)),
      Waves.getD_addAt_ne _ _ (Waves.idx_ne hcc hcc (by omega)),
      Waves.getD_addAt_self _ _ hl0, hbase, zero_add]
  · show (Waves.addAt (Waves.addAt (Waves.addAt (Waves.addAt (Waves.addAt w.curr
        (Waves.idx w.cols r c) m)
        (Waves.idx w.cols (r + 1) c) (m / 2))
        (Waves.idx w.cols (r - 1) c) (m / 2))
        (Waves.idx w.cols r (c + 1)) (m / 2))
        (Waves.idx w.cols r (c - 1)) (m / 2)).getD (Waves.idx w.cols (r + 1) c) 0 = m / 2
    rw [Waves.getD_addAt_ne _ _ (Waves.idx_ne hcm hcc (by omega)),
      Waves.getD_addAt_ne _ _ (Waves.idx_ne hcp hcc (by omega)),
      Waves.getD_addAt_ne _ _ (Waves.idx_ne hcc hcc (by omega)),
      Waves.getD_addAt_self _ _ hl1,
      Waves.getD_addAt_ne _ _ (Waves.idx_ne hcc hcc (by omega)),
      hbase, zero_add]
  · show (Waves.addAt (Waves.addAt (Waves.addAt (Waves.addAt (Waves.addAt w.curr
        (Waves.idx w.cols r c) m)
        (Waves.idx w.cols (r + 1) c) (m / 2))
        (Waves.idx w.cols (r - 1) c) (m / 2))
        (Waves.idx w.cols r (c + 1)) (m / 2))
        (Waves.idx w.cols r (c - 1)) (m / 2)).getD (Waves.idx w.cols (r - 1) c) 0 = m / 2
    rw [Waves.getD_addAt_ne _ _ (Waves.idx_ne hcm hcc (by omega)),
      Waves.getD_addAt_ne _ _ (Waves.idx_ne hcp hcc (by omega)),
      Waves.getD_addAt_self _ _ hl2,
      Waves.getD_addAt_ne _ _ (Waves.idx_ne hcc hcc (by omega)),
      Waves.getD_addAt_ne _ _ (Waves.idx_ne hcc hcc (by omega)),
      hbase, zero_add]
  · show (Waves.addAt (Waves.addAt (Waves.addAt (Waves.addAt (Waves.addAt w.curr
        (Waves.idx w.cols r c) m)
        (Waves.idx w.cols (r + 1) c) (m / 2))
        (Waves.idx w.cols (r - 1) c) (m / 2))
        (Waves.idx w.cols r (c + 1)) (m / 2))
        (Waves.idx w.cols r (c - 1)) (m / 2)).getD (Waves.idx w.cols r (c + 1)) 0 = m / 2
    rw [Waves.getD_addAt_ne _ _ (Waves.idx_ne hcm hcp (by omega)),
      Waves.getD_addAt_self _ _ hl3,
      Waves.getD_addAt_ne _ _ (Waves.idx_ne hcc hcp (by omega)),
      Waves.getD_addAt_ne _ _ (Waves.idx_ne hcc hcp (by omega)),
      Waves.getD_addAt_ne _ _ (Waves.idx_ne hcc hcp (by omega)),
      hbase, zero_add]
  · show (Waves.addAt (Waves.addAt (Waves.addAt (Waves.addAt (Waves.addAt w.curr
        (Waves.idx w.cols r c) m)
        (Waves.idx w.cols (r + 1) c) (m / 2))
        (Waves.idx w.cols (r - 1) c) (m / 2))
        (Waves.idx w.cols r (c + 1)) (m / 2))
        (Waves.idx w.cols r (c - 1)) (m / 2)).getD (Waves.idx w.cols r (c - 1)) 0 = m / 2
    rw [Waves.getD_addAt_self _ _ hl4,
      Waves.getD_addAt_ne _ _ (Waves.idx_ne hcp hcm (by omega)),
      Waves.getD_addAt_ne _ _ (Waves.idx_ne hcc hcm (by omega)),
      Waves.getD_addAt_ne _ _ (Waves.idx_ne hcc hcm (by omega)),
      Waves.getD_addAt_ne _ _ (Waves.idx_ne hcc hcm (by omega)),
      hbase, zero_add]
  · show (Waves.addAt (Waves.addAt (Waves.addAt (Waves.addAt (Waves.addAt w.curr
        (Waves.idx w.cols r c) m)
        (Waves.idx w.cols (r + 1) c) (m / 2))
        (Waves.idx w.cols (r - 1) c) (m / 2))
        (Waves.idx w.cols r (c + 1)) (m / 2))
        (Waves.idx w.cols r (c - 1)) (m / 2)).getD (Waves.idx w.cols r' c') 0 = 0
    rw [Waves.getD_addAt_ne _ _ (Waves.idx_ne hcm hc' (by omega)),
      Waves.getD_addAt_ne _ _ (Waves.idx_ne hcp hc' (by omega)),
      Waves.getD_addAt_ne _ _ (Waves.idx_ne hcc hc' (by omega)),
      Waves.getD_addAt_ne _ _ (Waves.idx_ne hcc hc' (by omega)),
      Waves.getD_addAt_ne _ _ (Waves.idx_ne hcc hc' (by omega)),
      hbase]

/-- C3, witness: a single `Disturb(1, 1, 1)` on a freshly constructed 4×4
grid, checked against the far sample `(3, 3)`. -/
theorem disturb_impulse_shape_witness :
    (2 < (Waves.init 4 4 1 1 1 0).rows ∧ 2 < (Waves.init 4 4 1 1 1 0).cols
      ∧ (Waves.init 4 4 1 1 1 0).curr
          = List.replicate ((Waves.init 4 4 1 1 1 0).rows * (Waves.init 4 4 1 1 1 0).cols) 0
      ∧ 3 < (Waves.init 4 4 1 1 1 0).rows ∧ 3 < (Waves.init 4 4 1 1 1 0).cols)
    ∧ (Waves.hAt (Waves.Disturb (Waves.init 4 4 1 1 1 0) 1 1 1).curr
          (Waves.init 4 4 1 1 1 0).cols 1 1 = 1
      ∧ Waves.hAt (Waves.Disturb (Waves.init 4 4 1 1 1 0) 1 1 1).curr
          (Waves.init 4 4 1 1 1 0).cols (1 + 1) 1 = 1 / 2
      ∧ Waves.hAt (Waves.Disturb (Waves.init 4 4 1 1 1 0) 1 1 1).curr
          (Waves.init 4 4 1 1 1 0).cols (1 - 1) 1 = 1 / 2
      ∧ Waves.hAt (Waves.Disturb (Waves.init 4 4 1 1 1 0) 1 1 1).curr
          (Waves.init 4 4 1 1 1 0).cols 1 (1 + 1) = 1 / 2
      ∧ Waves.hAt (Waves.Disturb (Waves.init 4 4 1 1 1 0) 1 1 1).curr
          (Waves.init 4 4 1 1 1 0).cols 1 (1 - 1) = 1 / 2
      ∧ Waves.hAt (Waves.Disturb (Waves.init 4 4 1 1 1 0) 1 1 1).curr
          (Waves.init 4 4 1 1 1 0).cols 3 3 = 0
      ∧ (Waves.Disturb (Waves.init 4 4 1 1 1 0) 1 1 1).pos = (Waves.init 4 4 1 1 1 0).pos
      ∧ (Waves.Disturb (Waves.init 4 4 1 1 1 0) 1 1 1).normal
          = (Waves.init 4 4 1 1 1 0).normal
      ∧ (Waves.Disturb (Waves.init 4 4 1 1 1 0) 1 1 1).prev = (Waves.init 4 4 1 1 1 0).prev
      ∧ (Waves.Disturb (Waves.init 4 4 1 1 1 0) 1 1 1).next
          = (Waves.init 4 4 1 1 1 0).next) :=
  ⟨⟨by decide, by decide, rfl, by decide, by decide⟩,
   disturb_impulse_shape (Waves.init 4 4 1 1 1 0) 1 1 3 3 1
     (by decide) (by decide) rfl
     (by decide) (by decide) (by decide) (by decide) (by decide) (by decide)
     (by decide) (by decide) (by decide) (by decide) (by decide)⟩

/-! ### Claim C2: the Dirichlet boundary invariant -/

/-- The three-buffer Dirichlet invariant: the grid dimensions are `rows` and
`cols`, and every boundary sample of all three height buffers is 0. -/
def DirichletInv (rows cols : ℕ) (w : Waves) : Prop :=
  w.rows = rows ∧ w.cols = cols ∧
  ∀ r c, r < rows → c < cols → (r = 0 ∨ r = rows - 1 ∨ c = 0 ∨ c = cols - 1) →
    Waves.hAt w.prev cols r c = 0 ∧ Waves.hAt w.curr cols r c = 0
      ∧ Waves.hAt w.next cols r c = 0

theorem dirichletInv_init (rows cols : ℕ) (dx ts speed damping : ℚ) :
    DirichletInv rows cols (Waves.init rows cols dx ts speed damping) := by
  refine ⟨rfl, rfl, ?_⟩
  intro r c _ _ _
  exact ⟨Waves.getD_replicate_zero _ _, Waves.getD_replicate_zero _ _,
    Waves.getD_replicate_zero _ _⟩

theorem dirichletInv_disturb (rows cols r c : ℕ) (m : ℚ) (w : Waves)
    (hinv : DirichletInv rows cols w)
    (hr1 : 2 ≤ r) (hr2 : r ≤ rows - 3) (hc1 : 2 ≤ c) (hc2 : c ≤ cols - 3) :
    DirichletInv rows cols (Waves.Disturb w r c m) := by
  obtain ⟨hwr, hwc, hb⟩ := hinv
  subst hwr
  subst hwc
  refine ⟨rfl, rfl, ?_⟩
  intro r₀ c₀ hr₀ hc₀ hbd
  have hrows5 : 5 ≤ w.rows := by omega
  have hcols5 : 5 ≤ w.cols := by omega
  have hcc : c < w.cols := by omega
  have hcp : c + 1 < w.cols := by omega
  have hcm : c - 1 < w.cols := by omega
  refine ⟨(hb r₀ c₀ hr₀ hc₀ hbd).1, ?_, (hb r₀ c₀ hr₀ hc₀ hbd).2.2⟩
  show (Waves.addAt (Waves.addAt (Waves.addAt (Waves.addAt (Waves.addAt w.curr
      (Waves.idx w.cols r c) m)
      (Waves.idx w.cols (r + 1) c) (m / 2))
      (Waves.idx w.cols (r - 1) c) (m / 2))
      (Waves.idx w.cols r (c + 1)) (m / 2))
      (Waves.idx w.cols r (c - 1)) (m / 2)).getD (Waves.idx w.cols r₀ c₀) 0 = 0
  rw [Waves.getD_addAt_ne _ _ (Waves.idx_ne hcm hc₀
        (by rcases hbd with h | h | h | h <;> omega)),
    Waves.getD_addAt_ne _ _ (Waves.idx_ne hcp hc₀
        (by rcases hbd with h | h | h | h <;> omega)),
    Waves.getD_addAt_ne _ _ (Waves.idx_ne hcc hc₀
        (by rcases hbd with h | h | h | h <;> omega)),
    Waves.getD_addAt_ne _ _ (Waves.idx_ne hcc hc₀
        (by rcases hbd with h | h | h | h <;> omega)),
    Waves.getD_addAt_ne _ _ (Waves.idx_ne hcc hc₀
        (by rcases hbd with h | h | h | h <;> omega))]
  exact (hb r₀ c₀ hr₀ hc₀ hbd).2.1

theorem dirichletInv_integrationStep (rows cols : ℕ) (w : Waves)
    (hinv : DirichletInv rows cols w) :
    DirichletInv rows cols (Waves.integrationStep w) := by
  obtain ⟨hwr, hwc, hb⟩ := hinv
  subst hwr
  subst hwc
  refine ⟨rfl, rfl, ?_⟩
  intro r₀ c₀ hr₀ hc₀ hbd
  refine ⟨(hb r₀ c₀ hr₀ hc₀ hbd).2.1, ?_, (hb r₀ c₀ hr₀ hc₀ hbd).1⟩
  show Waves.hAt (Waves.computeNext w) w.cols r₀ c₀ = 0
  rw [Waves.hAt_computeNext w hr₀ hc₀, if_neg (by rcases hbd with h | h | h | h <;> omega)]
  exact (hb r₀ c₀ hr₀ hc₀ hbd).2.2

theorem dirichletInv_updateLoopAux (rows cols : ℕ) (n : ℕ) : ∀ (w : Waves),
    DirichletInv rows cols w → DirichletInv rows cols (Waves.updateLoopAux n w) := by
  induction n with
  | zero => intro w hinv; exact hinv
  | succ n ih =>
    intro w hinv
    rw [Waves.updateLoopAux]
    split
    · exact ih _ (dirichletInv_integrationStep rows cols w hinv)
    · exact hinv

theorem dirichletInv_refresh (rows cols : ℕ) (w : Waves)
    (hinv : DirichletInv rows cols w) :
    DirichletInv rows cols (Waves.refreshGeometry w) := hinv

theorem dirichletInv_update (rows cols : ℕ) (dt : ℚ) (w : Waves)
    (hinv : DirichletInv rows cols w) :
    DirichletInv rows cols (Waves.Update w dt) :=
  dirichletInv_refresh rows cols _ (dirichletInv_updateLoopAux rows cols _ _ hinv)

theorem dirichletInv_foldl (rows cols : ℕ) (calls : List Waves.WaveCall) :
    ∀ (w : Waves), DirichletInv rows cols w →
    (∀ k ∈ calls, ∀ r' c' m, k = Waves.WaveCall.disturb r' c' m →
      2 ≤ r' ∧ r' ≤ rows - 3 ∧ 2 ≤ c' ∧ c' ≤ cols - 3) →
    DirichletInv rows cols (List.foldl Waves.applyCall w calls) := by
  induction calls with
  | nil => intro w hinv _; exact hinv
  | cons k ks ih =>
    intro w hinv hcalls
    rw [List.foldl_cons]
    refine ih _ ?_ (fun k' hk' => hcalls k' (List.mem_cons_of_mem _ hk'))
    cases k with
    | disturb r' c' m =>
      obtain ⟨h1, h2, h3, h4⟩ := hcalls _ (List.mem_cons_self _ _) r' c' m rfl
      exact dirichletInv_disturb rows cols r' c' m w hinv h1 h2 h3 h4
    | update dt => exact dirichletInv_update rows cols dt w hinv

/-- C2, counterexample: the claim fails for `Disturb` at a coordinate that is
strictly interior in the claimed sense (`row, col ∈ [1, rows-2]`) but whose
neighbor spread reaches the boundary.  On a validly constructed 4×4 grid
(`rows = cols = 4 > 2`), `Disturb(2, 2, 1)` is strictly interior
(`1 ≤ 2 ≤ rows-2`), yet immediately afterwards the boundary sample
`(3, 2)` (with `3 = rows-1`) holds `1/2`, not `0`. -/
theorem disturb_interior_breaks_boundary :
    (2 < 4 ∧ 1 ≤ 2 ∧ 2 ≤ 4 - 2 ∧ 3 = 4 - 1)
    ∧ Waves.hAt (Waves.applyCall (Waves.init 4 4 1 1 1 0)
        (Waves.WaveCall.disturb 2 2 1)).curr 4 3 2 ≠ 0 := by
  refine ⟨⟨by omega, by omega, by omega, by omega⟩, ?_⟩
  have hbase : ∀ a b : ℕ, (Waves.init 4 4 1 1 1 0).curr.getD (Waves.idx 4 a b) 0 = 0 := by
    intro a b
    exact Waves.getD_replicate_zero _ _
  have hlen : Waves.idx 4 3 2
      < (Waves.addAt (Waves.init 4 4 1 1 1 0).curr (Waves.idx 4 2 2) 1).length := by
    rw [Waves.length_addAt]
    show Waves.idx 4 3 2 < (List.replicate (4 * 4) (0:ℚ)).length
    rw [List.length_replicate]
    decide
  show (Waves.addAt (Waves.addAt (Waves.addAt (Waves.addAt (Waves.addAt
      (Waves.init 4 4 1 1 1 0).curr
      (Waves.idx 4 2 2) 1)
      (Waves.idx 4 3 2) (1 / 2))
      (Waves.idx 4 1 2) (1 / 2))
      (Waves.idx 4 2 3) (1 / 2))
      (Waves.idx 4 2 1) (1 / 2)).getD (Waves.idx 4 3 2) 0 ≠ 0
  rw [Waves.getD_addAt_ne _ _ (by decide),
    Waves.getD_addAt_ne _ _ (by decide),
    Waves.getD_addAt_ne _ _ (by decide),
    Waves.getD_addAt_self _ _ hlen,
    Waves.getD_addAt_ne _ _ (by decide),
    hbase, zero_add]
  norm_num

/-- C2, amended: the Dirichlet boundary invariant holds for every finite
sequence of `Disturb`/`Update` calls in which each `Disturb` uses doubly
interior coordinates `row ∈ [2, rows-3]`, `col ∈ [2, cols-3]` (so that the
half-magnitude neighbor spread also stays off the boundary); then every
boundary sample of the current-height buffer is exactly 0 after each call. -/
theorem dirichlet_boundary_deep_interior (rows cols : ℕ) (dx ts speed damping : ℚ)
    (calls : List Waves.WaveCall) (r c : ℕ)
    (hrows : 2 < rows) (hcols : 2 < cols)
    (hcalls : ∀ k ∈ calls, ∀ r' c' m, k = Waves.WaveCall.disturb r' c' m →
      2 ≤ r' ∧ r' ≤ rows - 3 ∧ 2 ≤ c' ∧ c' ≤ cols - 3)
    (hr : r < rows) (hc : c < cols)
    (hb : r = 0 ∨ r = rows - 1 ∨ c = 0 ∨ c = cols - 1) :
    Waves.hAt (List.foldl Waves.applyCall
      (Waves.init rows cols dx ts speed damping) calls).curr cols r c = 0 :=
  ((dirichletInv_foldl rows cols calls _
    (dirichletInv_init rows cols dx ts speed damping) hcalls).2.2 r c hr hc hb).2.1

/-- C2, witness for the amended invariant: empty call list on a 3×3 grid,
corner sample `(0, 0)`. -/
theorem dirichlet_boundary_deep_interior_witness :
    (2 < 3 ∧ 2 < 3 ∧ 0 < 3 ∧ ((0:ℕ) = 0 ∨ (0:ℕ) = 3 - 1 ∨ (0:ℕ) = 0 ∨ (0:ℕ) = 3 - 1))
    ∧ Waves.hAt (List.foldl Waves.applyCall
        (Waves.init 3 3 1 1 1 0) []).curr 3 0 0 = 0 :=
  ⟨⟨by omega, by omega, by omega, Or.inl rfl⟩,
   dirichlet_boundary_deep_interior 3 3 1 1 1 0 [] 0 0 (by omega) (by omega)
     (fun k hk => absurd hk (List.not_mem_nil k)) (by omega) (by omega) (Or.inl rfl)⟩

/-! ### Claim C5: accumulator correctness of sub-step Update calls -/

attribute [ext] Vec3 Waves

theorem timeStep_updateLoopAux (n : ℕ) : ∀ (w : Waves),
    (Waves.updateLoopAux n w).timeStep = w.timeStep := by
  induction n with
  | zero => intro w; rfl
  | succ n ih =>
    intro w
    rw [Waves.updateLoopAux]
    split
    · rw [ih]; rfl
    · rfl

theorem timeStep_update (w : Waves) (dt : ℚ) :
    (Waves.Update w dt).timeStep = w.timeStep := by
  show (Waves.updateLoopAux _ _).timeStep = w.timeStep
  rw [timeStep_updateLoopAux]

theorem accum_iterate (n : ℕ) : ∀ (w : Waves),
    (Waves.integrationStep^[n] w).accum = w.accum - n * w.timeStep := by
  induction n with
  | zero => intro w; simp
  | succ n ih =>
    intro w
    rw [Function.iterate_succ_apply, ih]
    show w.accum - w.timeStep - n * w.timeStep = _
    push_cast
    ring

theorem floor_div_zero (a b : ℚ) (hb : 0 < b) (h0 : 0 ≤ a) (h1 : a < b) :
    ⌊a / b⌋ = 0 := by
  rw [Int.floor_eq_zero_iff]
  exact ⟨div_nonneg h0 hb.le, (div_lt_one hb).mpr h1⟩

theorem floor_div_one (a b : ℚ) (hb : 0 < b) (h1 : b ≤ a) (h2 : a < 2 * b) :
    ⌊a / b⌋ = 1 := by
  rw [Int.floor_eq_iff]
  constructor
  · push_cast
    exact (one_le_div hb).mpr h1
  · push_cast
    rw [div_lt_iff₀ hb]
    linarith

theorem refresh_setAccum (w : Waves) (a : ℚ) :
    Waves.refreshGeometry { w with accum := a }
      = { Waves.refreshGeometry w with accum := a } := rfl

theorem refresh_refresh (w : Waves) :
    Waves.refreshGeometry (Waves.refreshGeometry w) = Waves.refreshGeometry w := by
  refine Waves.ext rfl rfl rfl rfl rfl rfl rfl rfl rfl rfl rfl rfl ?_ rfl rfl
  show (List.range (w.rows * w.cols)).map _ = (List.range (w.rows * w.cols)).map _
  apply List.map_congr_left
  intro i hi
  rw [List.mem_range] at hi
  have hx : (Waves.refreshGeometry w).pos.getD i ⟨0, 0, 0⟩ =
      { x := (w.pos.getD i ⟨0, 0, 0⟩).x
        y := w.curr.getD i 0
        z := (w.pos.getD i ⟨0, 0, 0⟩).z } := by
    show ((List.range (w.rows * w.cols)).map _).getD i _ = _
    rw [Waves.getD_map_range _ _ hi]
  rw [hx]
  rfl

theorem refresh_step_refresh (w : Waves) :
    Waves.refreshGeometry (Waves.integrationStep (Waves.refreshGeometry w))
      = Waves.refreshGeometry (Waves.integrationStep w) := by
  refine Waves.ext rfl rfl rfl rfl rfl rfl rfl rfl rfl rfl rfl rfl ?_ rfl rfl
  show (List.range (w.rows * w.cols)).map _ = (List.range (w.rows * w.cols)).map _
  apply List.map_congr_left
  intro i hi
  rw [List.mem_range] at hi
  have hx : (Waves.refreshGeometry w).pos.getD i ⟨0, 0, 0⟩ =
      { x := (w.pos.getD i ⟨0, 0, 0⟩).x
        y := w.curr.getD i 0
        z := (w.pos.getD i ⟨0, 0, 0⟩).z } := by
    show ((List.range (w.rows * w.cols)).map _).getD i _ = _
    rw [Waves.getD_map_range _ _ hi]
  show ({ x := ((Waves.integrationStep (Waves.refreshGeometry w)).pos.getD i ⟨0, 0, 0⟩).x
          y := (Waves.integrationStep (Waves.refreshGeometry w)).curr.getD i 0
          z := ((Waves.integrationStep (Waves.refreshGeometry w)).pos.getD i ⟨0, 0, 0⟩).z }
        : Vec3)
      = { x := ((Waves.integrationStep w).pos.getD i ⟨0, 0, 0⟩).x
          y := (Waves.integrationStep w).curr.getD i 0
          z := ((Waves.integrationStep w).pos.getD i ⟨0, 0, 0⟩).z }
  have hp : (Waves.integrationStep (Waves.refreshGeometry w)).pos
      = (Waves.refreshGeometry w).pos := rfl
  rw [hp, hx]
  rfl

theorem update_accum (w : Waves) (dt : ℚ) (hts : 0 < w.timeStep) :
    (Waves.Update w dt).accum = (w.accum + dt)
      - (((⌊(w.accum + dt) / w.timeStep⌋).toNat : ℚ)) * w.timeStep := by
  rw [update_eq_iterate w dt hts]
  show (Waves.integrationStep^[_] _).accum = _
  rw [accum_iterate]

theorem update_accum_bounds (w : Waves) (dt : ℚ) (hts : 0 < w.timeStep)
    (h0 : 0 ≤ w.accum) (hdt : 0 ≤ dt) :
    0 ≤ (Waves.Update w dt).accum ∧ (Waves.Update w dt).accum < w.timeStep := by
  rw [update_accum w dt hts]
  have hx : 0 ≤ w.accum + dt := by linarith
  have hnn : (0:ℤ) ≤ ⌊(w.accum + dt) / w.timeStep⌋ :=
    Int.floor_nonneg.mpr (div_nonneg hx hts.le)
  have hcast : (((⌊(w.accum + dt) / w.timeStep⌋).toNat : ℚ))
      = ((⌊(w.accum + dt) / w.timeStep⌋ : ℤ) : ℚ) := by
    exact_mod_cast congrArg (fun z : ℤ => (z : ℚ)) (Int.toNat_of_nonneg hnn)
  rw [hcast]
  exact ⟨Int.sub_floor_div_mul_nonneg _ hts, Int.sub_floor_div_mul_lt _ hts⟩

/-- For every reachable state, the timeStep is positive and the accumulator
sits in `[0, timeStep)` — leftover fractional time from the sub-step loop. -/
theorem reachable_inv (w : Waves) (h : Waves.Reachable w) :
    0 < w.timeStep ∧ 0 ≤ w.accum ∧ w.accum < w.timeStep := by
  obtain ⟨rows, cols, dx, ts, speed, damping, calls, hrows, hcols, hts, hcalls, hw⟩ := h
  subst hw
  suffices H : ∀ (cs : List Waves.WaveCall) (w0 : Waves), w0.timeStep = ts →
      0 ≤ w0.accum → w0.accum < ts →
      (∀ k ∈ cs, ∀ dt, k = Waves.WaveCall.update dt → 0 ≤ dt) →
      ((List.foldl Waves.applyCall w0 cs).timeStep = ts
        ∧ 0 ≤ (List.foldl Waves.applyCall w0 cs).accum
        ∧ (List.foldl Waves.applyCall w0 cs).accum < ts) by
    obtain ⟨hT, hA, hB⟩ := H calls (Waves.init rows cols dx ts speed damping) rfl
      (le_refl 0) hts hcalls
    refine ⟨?_, hA, ?_⟩
    · rw [hT]; exact hts
    · rw [hT]; exact hB
  intro cs
  induction cs with
  | nil => intro w0 hT h0 h1 _; exact ⟨hT, h0, h1⟩
  | cons k ks ih =>
    intro w0 hT h0 h1 hcs
    rw [List.foldl_cons]
    refine ih _ ?_ ?_ ?_ (fun k' hk' => hcs k' (List.mem_cons_of_mem _ hk'))
    · cases k with
      | disturb r c m => exact hT
      | update dt => rw [Waves.applyCall, timeStep_update]; exact hT
    · cases k with
      | disturb r c m => exact h0
      | update dt =>
        have hdt : 0 ≤ dt := hcs _ (List.mem_cons_self _ _) dt rfl
        exact (update_accum_bounds w0 dt (hT ▸ hts) h0 hdt).1
    · cases k with
      | disturb r c m => exact h1
      | update dt =>
        have hdt : 0 ≤ dt := hcs _ (List.mem_cons_self _ _) dt rfl
        have := (update_accum_bounds w0 dt (hT ▸ hts) h0 hdt).2
        rw [Waves.applyCall]
        rw [← hT]
        exact this

theorem update_half_twice_of_inv (w : Waves) (hts : 0 < w.timeStep)
    (h0 : 0 ≤ w.accum) (h1 : w.accum < w.timeStep) :
    Waves.Update (Waves.Update w (w.timeStep / 2)) (w.timeStep / 2)
      = Waves.Update w w.timeStep := by
  have hRfl : (⌊(w.accum + w.timeStep) / w.timeStep⌋).toNat = 1 := by
    rw [floor_div_one _ _ hts (by linarith) (by linarith)]; rfl
  have hRHS : Waves.Update w w.timeStep = Waves.refreshGeometry
      (Waves.integrationStep { w with accum := w.accum + w.timeStep }) := by
    rw [update_eq_iterate w w.timeStep hts, hRfl, Function.iterate_one]
  rcases le_or_lt (w.timeStep / 2) w.accum with hge | hlt
  · -- the half step already triggers one integration step; the second half
    -- step triggers none
    have hf1 : (⌊(w.accum + w.timeStep / 2) / w.timeStep⌋).toNat = 1 := by
      rw [floor_div_one _ _ hts (by linarith) (by linarith)]; rfl
    have e1 : Waves.Update w (w.timeStep / 2) = Waves.refreshGeometry
        (Waves.integrationStep { w with accum := w.accum + w.timeStep / 2 }) := by
      rw [update_eq_iterate w (w.timeStep / 2) hts, hf1, Function.iterate_one]
    rw [e1]
    rw [update_eq_iterate (Waves.refreshGeometry (Waves.integrationStep
      { w with accum := w.accum + w.timeStep / 2 })) (w.timeStep / 2) hts]
    have hN : (⌊((Waves.refreshGeometry (Waves.integrationStep
        { w with accum := w.accum + w.timeStep / 2 })).accum + w.timeStep / 2)
          / (Waves.refreshGeometry (Waves.integrationStep
        { w with accum := w.accum + w.timeStep / 2 })).timeStep⌋).toNat = 0 := by
      show (⌊(w.accum + w.timeStep / 2 - w.timeStep + w.timeStep / 2)
        / w.timeStep⌋).toNat = 0
      rw [floor_div_zero _ _ hts (by linarith) (by linarith)]
      rfl
    rw [hN, Function.iterate_zero_apply]
    rw [← refresh_setAccum, refresh_refresh]
    have hrec : { Waves.integrationStep { w with accum := w.accum + w.timeStep / 2 } with
        accum := (Waves.refreshGeometry (Waves.integrationStep
          { w with accum := w.accum + w.timeStep / 2 })).accum + w.timeStep / 2 }
        = Waves.integrationStep { w with accum := w.accum + w.timeStep } := by
      refine Waves.ext rfl rfl rfl rfl rfl rfl rfl rfl rfl rfl rfl rfl rfl rfl ?_
      show w.accum + w.timeStep / 2 - w.timeStep + w.timeStep / 2
        = w.accum + w.timeStep - w.timeStep
      ring
    rw [hrec, hRHS]
  · -- the first half step triggers no integration step; the second one does
    have hf1 : (⌊(w.accum + w.timeStep / 2) / w.timeStep⌋).toNat = 0 := by
      rw [floor_div_zero _ _ hts (by linarith) (by linarith)]
      rfl
    have e1 : Waves.Update w (w.timeStep / 2) = Waves.refreshGeometry
        { w with accum := w.accum + w.timeStep / 2 } := by
      rw [update_eq_iterate w (w.timeStep / 2) hts, hf1, Function.iterate_zero_apply]
    rw [e1]
    rw [update_eq_iterate (Waves.refreshGeometry
      { w with accum := w.accum + w.timeStep / 2 }) (w.timeStep / 2) hts]
    have hN : (⌊((Waves.refreshGeometry
        { w with accum := w.accum + w.timeStep / 2 }).accum + w.timeStep / 2)
          / (Waves.refreshGeometry
        { w with accum := w.accum + w.timeStep / 2 }).timeStep⌋).toNat = 1 := by
      show (⌊(w.accum + w.timeStep / 2 + w.timeStep / 2) / w.timeStep⌋).toNat = 1
      rw [floor_div_one _ _ hts (by linarith) (by linarith)]
      rfl
    rw [hN, Function.iterate_one]
    rw [← refresh_setAccum, refresh_step_refresh]
    have hrec : ({ w with accum := (Waves.refreshGeometry
        { w with accum := w.accum + w.timeStep / 2 }).accum + w.timeStep / 2 } : Waves)
        = { w with accum := w.accum + w.timeStep } := by
      refine Waves.ext rfl rfl rfl rfl rfl rfl rfl rfl rfl rfl rfl rfl rfl rfl ?_
      show w.accum + w.timeStep / 2 + w.timeStep / 2 = w.accum + w.timeStep
      ring
    rw [hrec, hRHS]

/-- C5: for every reachable wave-field state (valid construction followed by
any finite sequence of `Disturb` and nonnegative-`dt` `Update` calls), calling
`Update(timeStep/2)` twice yields exactly the same state — height buffers,
positions, normals and elapsed-time accumulator — as calling
`Update(timeStep)` once. -/
theorem update_half_step_twice (w : Waves) (h : Waves.Reachable w) :
    Waves.Update (Waves.Update w (w.timeStep / 2)) (w.timeStep / 2)
      = Waves.Update w w.timeStep := by
  obtain ⟨hts, h0, h1⟩ := reachable_inv w h
  exact update_half_twice_of_inv w hts h0 h1

/-- C5, witness on a freshly constructed 3×3 grid with `timeStep = 1`. -/
theorem update_half_step_twice_witness :
    Waves.Reachable (Waves.init 3 3 1 1 1 0)
    ∧ Waves.Update (Waves.Update (Waves.init 3 3 1 1 1 0)
          ((Waves.init 3 3 1 1 1 0).timeStep / 2)) ((Waves.init 3 3 1 1 1 0).timeStep / 2)
        = Waves.Update (Waves.init 3 3 1 1 1 0) (Waves.init 3 3 1 1 1 0).timeStep :=
  have hreach : Waves.Reachable (Waves.init 3 3 1 1 1 0) :=
    ⟨3, 3, 1, 1, 1, 0, [], by omega, by omega, by norm_num,
     fun k hk => absurd hk (List.not_mem_nil k), rfl⟩
  ⟨hreach, update_half_step_twice (Waves.init 3 3 1 1 1 0) hreach⟩

/-! ### Claim C4: the coefficient identity -/

/-- C4, counterexample: at the drivers' construction parameters
(`timeStep = 3/100 > 0`, `spatialStep = 1 > 0`, `damping = 1/5 ≥ 0`) the sum
`k1 + k2 + k3` computed in exact arithmetic is NOT 1, refuting the claimed
identity `k1 + k2 + k3 == 1`. -/
theorem coefficient_sum_three_ne_one :
    0 < (3/100 : ℚ) ∧ 0 < (1 : ℚ) ∧ 0 ≤ (1/5 : ℚ) ∧
    (Waves.init 128 128 1 (3/100) 4 (1/5)).k1 + (Waves.init 128 128 1 (3/100) 4 (1/5)).k2
      + (Waves.init 128 128 1 (3/100) 4 (1/5)).k3 ≠ 1 := by
  refine ⟨by norm_num, by norm_num, by norm_num, ?_⟩
  simp only [Waves.init]
  norm_num

/-- C4, amended: since `k3` weights the SUM of the four neighbor samples, the
weights applied to a constant field are `k1`, `k2` and four copies of `k3`,
and the true derivation identity is `k1 + k2 + 4*k3 == 1` (in exact
arithmetic, for `timeStep > 0`, `spatialStep > 0`, `damping ≥ 0`). -/
theorem coefficient_sum_identity (rows cols : ℕ) (dx ts speed damping : ℚ)
    (hts : 0 < ts) (hdx : 0 < dx) (hdamp : 0 ≤ damping) :
    (Waves.init rows cols dx ts speed damping).k1
    + (Waves.init rows cols dx ts speed damping).k2
    + 4 * (Waves.init rows cols dx ts speed damping).k3 = 1 := by
  have hd : damping * ts + 2 ≠ 0 := by nlinarith
  simp only [Waves.init]
  field_simp
  ring

/-- C4, witness for the amended identity at concrete parameters. -/
theorem coefficient_sum_identity_witness :
    0 < (1 : ℚ) ∧ 0 ≤ (0 : ℚ) ∧
    (Waves.init 3 3 1 1 1 0).k1 + (Waves.init 3 3 1 1 1 0).k2
      + 4 * (Waves.init 3 3 1 1 1 0).k3 = 1 :=
  ⟨by norm_num, by norm_num, coefficient_sum_identity 3 3 1 1 1 0 (by norm_num) (by norm_num) (by norm_num)⟩

/-! ### Claim C6: texture-coordinate derivation in the driver -/

/-- C6: for every sample index `i`, the vertex the driver writes carries the
texture coordinates `u = 0.5 + Position(i).x / Width()` and
`v = 0.5 - Position(i).z / Depth()`, derived from the position; the
derivation lives in the driver's vertex construction (`mkWaveVertex`,
embedded from TexWavesApp.cpp lines 876-884) — the `Waves` core holds no
texture data and only supplies `Position`, `Width` and `Depth`. -/
theorem texcoord_from_position (w : Waves) (i : ℕ) :
    (mkWaveVertex w i).texC =
      (1/2 + (Waves.Position w i).x / Waves.Width w,
       1/2 - (Waves.Position w i).z / Waves.Depth w) := rfl

/-! ### Claim C7: per-tick call order in the driver -/

/-- C7: one driver tick decomposes as: the optional timer-gated `Disturb`
first, then exactly one `Update(dt)` applied to the post-`Disturb` state, and
the vertex buffer is read (via `Position`/`Normal` for every
`i ∈ [0, VertexCount())`) from the state AFTER that single `Update`
returned. -/
theorem tick_call_order (st : TexWavesState) (totalTime dt : ℚ)
    (randRow randCol : ℕ) (randMag : ℚ) :
    (UpdateWavesTick st totalTime dt randRow randCol randMag).waves =
      Waves.Update
        (if (1/4 : ℚ) ≤ totalTime - st.tBase
         then Waves.Disturb st.waves randRow randCol randMag
         else st.waves) dt
    ∧ (UpdateWavesTick st totalTime dt randRow randCol randMag).wavesVB =
      (List.range (Waves.VertexCount
          (UpdateWavesTick st totalTime dt randRow randCol randMag).waves)).map
        (mkWaveVertex (UpdateWavesTick st totalTime dt randRow randCol randMag).waves) :=
  ⟨rfl, rfl⟩

/-! ### Claim C8: out-of-range Disturb is rejected -/

/-- C8: calling the validated `Disturb` with a coordinate outside the strict
interior fails with a domain error; no mutated state is produced, so every
buffer is left unchanged. -/
theorem disturb_out_of_range_rejected (w : Waves) (r c : ℕ) (m : ℚ)
    (h : ¬ Waves.interior w r c) :
    Waves.disturbChecked w r c m =
      Except.error "Disturb: coordinates outside the strict interior" := by
  simp [Waves.disturbChecked, h]

/-- C8, witness: `Disturb(0, 0, 1.0)` on a freshly constructed 5×5 grid is
rejected. -/
theorem disturb_out_of_range_rejected_witness :
    ¬ Waves.interior (Waves.init 5 5 1 (3/100) 4 (1/5)) 0 0 ∧
    Waves.disturbChecked (Waves.init 5 5 1 (3/100) 4 (1/5)) 0 0 1 =
      Except.error "Disturb: coordinates outside the strict interior" := by
  have h : ¬ Waves.interior (Waves.init 5 5 1 (3/100) 4 (1/5)) 0 0 := by
    simp [Waves.interior]
  exact ⟨h, disturb_out_of_range_rejected _ 0 0 1 h⟩

/-! ### Claim C9: the drivers' randomized Disturb calls satisfy the
strict-interior precondition -/

/-- C9: on the 128×128 grid both drivers construct, every issued call
`Disturb(Rand(4, RowCount()-5), Rand(4, ColumnCount()-5), RandF(0.2, 0.5))`
has row and column inside the strict interior `[1, rows-2] × [1, cols-2]` and
magnitude in `[0.2, 0.5]`; consequently the validated `Disturb` accepts it,
i.e. the out-of-bounds branch is unreachable from these drivers. -/
theorem driver_disturb_precondition (s t : ℕ) (u : ℚ) (h0 : 0 ≤ u) (h1 : u ≤ 1) :
    1 ≤ MathHelper.Rand 4 (Waves.RowCount landAndWavesInit - 5) s
    ∧ MathHelper.Rand 4 (Waves.RowCount landAndWavesInit - 5) s
        ≤ Waves.RowCount landAndWavesInit - 2
    ∧ 1 ≤ MathHelper.Rand 4 (Waves.ColumnCount landAndWavesInit - 5) t
    ∧ MathHelper.Rand 4 (Waves.ColumnCount landAndWavesInit - 5) t
        ≤ Waves.ColumnCount landAndWavesInit - 2
    ∧ (1/5 : ℚ) ≤ MathHelper.RandF (1/5) (1/2) u
    ∧ MathHelper.RandF (1/5) (1/2) u ≤ 1/2
    ∧ Waves.disturbChecked landAndWavesInit
        (MathHelper.Rand 4 (Waves.RowCount landAndWavesInit - 5) s)
        (MathHelper.Rand 4 (Waves.ColumnCount landAndWavesInit - 5) t)
        (MathHelper.RandF (1/5) (1/2) u)
      = Except.ok (Waves.Disturb landAndWavesInit
          (MathHelper.Rand 4 (Waves.RowCount landAndWavesInit - 5) s)
          (MathHelper.Rand 4 (Waves.ColumnCount landAndWavesInit - 5) t)
          (MathHelper.RandF (1/5) (1/2) u)) := by
  have hrow : Waves.RowCount landAndWavesInit = 128 := rfl
  have hcol : Waves.ColumnCount landAndWavesInit = 128 := rfl
  rw [hrow, hcol]
  have hr := MathHelper.Rand_mem 4 (128 - 5) s (by omega)
  have hc := MathHelper.Rand_mem 4 (128 - 5) t (by omega)
  have hm := MathHelper.RandF_mem (1/5) (1/2) u (by norm_num) h0 h1
  refine ⟨by omega, by omega, by omega, by omega, hm.1, hm.2, ?_⟩
  rw [Waves.disturbChecked, if_pos]
  show 1 ≤ _ ∧ _ ≤ (128:ℕ) - 2 ∧ 1 ≤ _ ∧ _ ≤ (128:ℕ) - 2
  refine ⟨by omega, by omega, by omega, by omega⟩

/-- C9, witness at concrete random seeds. -/
theorem driver_disturb_precondition_witness :
    (0 ≤ (0:ℚ) ∧ (0:ℚ) ≤ 1)
    ∧ (1 ≤ MathHelper.Rand 4 (Waves.RowCount landAndWavesInit - 5) 0
      ∧ MathHelper.Rand 4 (Waves.RowCount landAndWavesInit - 5) 0
          ≤ Waves.RowCount landAndWavesInit - 2
      ∧ 1 ≤ MathHelper.Rand 4 (Waves.ColumnCount landAndWavesInit - 5) 0
      ∧ MathHelper.Rand 4 (Waves.ColumnCount landAndWavesInit - 5) 0
          ≤ Waves.ColumnCount landAndWavesInit - 2
      ∧ (1/5 : ℚ) ≤ MathHelper.RandF (1/5) (1/2) 0
      ∧ MathHelper.RandF (1/5) (1/2) 0 ≤ 1/2
      ∧ Waves.disturbChecked landAndWavesInit
          (MathHelper.Rand 4 (Waves.RowCount landAndWavesInit - 5) 0)
          (MathHelper.Rand 4 (Waves.ColumnCount landAndWavesInit - 5) 0)
          (MathHelper.RandF (1/5) (1/2) 0)
        = Except.ok (Waves.Disturb landAndWavesInit
            (MathHelper.Rand 4 (Waves.RowCount landAndWavesInit - 5) 0)
            (MathHelper.Rand 4 (Waves.ColumnCount landAndWavesInit - 5) 0)
            (MathHelper.RandF (1/5) (1/2) 0))) :=
  ⟨⟨by norm_num, by norm_num⟩, driver_disturb_precondition 0 0 0 (by norm_num) (by norm_num)⟩

/-! ### Claim C10: index-buffer size and bounds -/

theorem sum_map_const_range (k v : ℕ) : ((List.range k).map (fun _ => v)).sum = v * k := by
  induction k with
  | zero => simp
  | succ k ih => rw [List.range_succ]; simp [ih]; ring

/-- C10: for `m ≥ 2`, `n ≥ 2`, `BuildWavesGeometry`'s loop fills exactly
`6*(m-1)*(n-1)` index entries, and every index written is at most `m*n - 1`,
i.e. strictly below the `VertexCount()` of the `m × n` waves grid. -/
theorem wavesIndices_length_and_bounds (m n x : ℕ) (dx ts speed damping : ℚ)
    (hm : 2 ≤ m) (hn : 2 ≤ n) (hx : x ∈ wavesIndices m n) :
    (wavesIndices m n).length = 6 * (m - 1) * (n - 1)
    ∧ x ≤ m * n - 1
    ∧ x < Waves.VertexCount (Waves.init m n dx ts speed damping) := by
  have hlen : (wavesIndices m n).length = 6 * (m - 1) * (n - 1) := by
    unfold wavesIndices
    rw [List.length_flatMap]
    have hinner : ∀ i : ℕ,
        (((List.range (n - 1)).flatMap fun j =>
          [i * n + j, i * n + j + 1, (i + 1) * n + j,
           (i + 1) * n + j, i * n + j + 1, (i + 1) * n + j + 1]).length) = 6 * (n - 1) := by
      intro i
      rw [List.length_flatMap]
      induction n - 1 with
      | zero => simp
      | succ k ih => rw [List.range_succ]; simp_all; omega
    simp only [Function.comp_def, hinner]
    rw [sum_map_const_range]
    ring
  have hmn : (m - 1) * n + n = m * n := by
    have h : m - 1 + 1 = m := by omega
    calc (m - 1) * n + n = ((m - 1) + 1) * n := by ring
      _ = m * n := by rw [h]
  have hbound : x ≤ m * n - 1 := by
    unfold wavesIndices at hx
    rw [List.mem_flatMap] at hx
    obtain ⟨i, hi, hx⟩ := hx
    rw [List.mem_flatMap] at hx
    obtain ⟨j, hj, hx⟩ := hx
    rw [List.mem_range] at hi hj
    have h0 : i * n ≤ (i + 1) * n := Nat.mul_le_mul_right n (by omega)
    have h1 : (i + 1) * n ≤ (m - 1) * n := Nat.mul_le_mul_right n (by omega)
    simp only [List.mem_cons, List.not_mem_nil, or_false] at hx
    rcases hx with h | h | h | h | h | h <;> omega
  refine ⟨hlen, hbound, ?_⟩
  show x < m * n
  have : 2 ≤ m * n := by
    have := Nat.mul_le_mul hm hn
    omega
  omega

/-- C10, witness on the smallest valid grid. -/
theorem wavesIndices_length_and_bounds_witness :
    (2 ≤ 2 ∧ 2 ≤ 2 ∧ 3 ∈ wavesIndices 2 2)
    ∧ ((wavesIndices 2 2).length = 6 * (2 - 1) * (2 - 1)
      ∧ 3 ≤ 2 * 2 - 1
      ∧ 3 < Waves.VertexCount (Waves.init 2 2 1 1 1 0)) :=
  ⟨⟨by omega, by omega, by decide⟩,
   wavesIndices_length_and_bounds 2 2 3 1 1 1 0 (by omega) (by omega) (by decide)⟩

end D3DWaves
